import Mathlib

/-!
Shallow embedding of the slot-pool core of `src/index.js`
(llamacpp-slot-distributor).

The program keeps two parallel JavaScript arrays in the extension settings:
`slots` (occupant cache keys) and `slotsUsage` (last-used timestamps).
A JavaScript array element that is a hole or holds the value `undefined`
is modelled as `none`; both behave identically in every operation of the
source (`findIndex` sees `undefined` for holes, `forEach` skips holes but
the undefined-vs-date comparison of the loop body rejects explicit
`undefined` values as well, and the used-slot count tests
`typeof name === "string"`).  Timestamps (`new Date()`) are modelled as
natural numbers supplied explicitly to `acquireSlot`.  Slot indices
computed by the source are JavaScript numbers that can be `-1`, so they
are modelled as `Int`.
-/

/-- The pool state: the parallel arrays `extensionSettings.slots` and
`extensionSettings.slotsUsage` of `src/index.js`. -/
structure SlotPool where
  slots : List (Option String)
  slotsUsage : List (Option Nat)
deriving Repr, DecidableEq

/-- The pool before `initializeSlots` ever ran: `||= []` initializes both
arrays empty. -/
def emptyPool : SlotPool := ⟨[], []⟩

/-- Number of slots: the length of the `slots` array. -/
def capacity (s : SlotPool) : Nat := s.slots.length

/-- JavaScript `arr.length = n`: truncates to the first `n` elements, or
extends with holes (`undefined`, i.e. `none`) up to length `n`. -/
def setLength (n : Nat) (l : List (Option α)) : List (Option α) :=
  l.take n ++ List.replicate (n - l.length) none

/-- JavaScript `arr[i] = v` for an integer index `i`: a negative index is
stored as a plain object property that no array operation (and no
serialization) ever reads back, so it is invisible; an index below the
length overwrites in place; an index at or above the length extends the
array with holes and puts `v` at position `i`. -/
def jsArraySet (l : List (Option α)) (i : Int) (v : α) : List (Option α) :=
  if i < 0 then l
  else if i.toNat < l.length then l.set i.toNat (some v)
  else l ++ List.replicate (i.toNat - l.length) none ++ [some v]

/-- JavaScript `delete arr[i]`: leaves the length unchanged; an index
inside the array becomes a hole (`none`); any other index is a no-op
(`delete` of a missing property succeeds silently). -/
def jsArrayDelete (l : List (Option α)) (i : Int) : List (Option α) :=
  if i < 0 then l
  else if i.toNat < l.length then l.set i.toNat none
  else l

/-- Source `initializeSlots(totalSlots)`: sets the length of both arrays
to `totalSlots` (`extensionSettings.slots.length = totalSlots` and the
same for `slotsUsage`). -/
def initializeSlots (totalSlots : Nat) (s : SlotPool) : SlotPool :=
  ⟨setLength totalSlots s.slots, setLength totalSlots s.slotsUsage⟩

/-- The hardcoded default argument of `initializeSlots` in the source. -/
def initializeSlotsDefault (s : SlotPool) : SlotPool := initializeSlots 2 s

/-- JavaScript `Array.prototype.findIndex` with running index `n`:
returns the index of the first element satisfying `p`, or `-1`. -/
def findIndexAux (p : Option String → Bool) : List (Option String) → Nat → Int
  | [], _ => -1
  | x :: xs, n => if p x then (n : Int) else findIndexAux p xs (n + 1)

/-- `arr.findIndex(p)` of the source. -/
def findIndexJS (p : Option String → Bool) (l : List (Option String)) : Int :=
  findIndexAux p l 0

/-- The loop body state of `findLeastRecentSlotIndex`: the pair
`(leastRecentDate, leastRecentIndex)`, where `leastRecentDate` starts at
`Infinity` (modelled `none`) and `leastRecentIndex` at `-1`.  The source
iterates with `forEach`, which skips holes, and the comparison
`date < leastRecentDate` is false when `date` is `undefined`; both cases
are the `none` branch.  A date compares `< Infinity`, which is the
`acc = none` branch; otherwise dates compare numerically, and only a
strictly smaller date displaces the stored minimum, so the first minimum
encountered is retained. -/
def findLeastRecentAux : List (Option Nat) → Nat → Option Nat → Int → Option Nat × Int
  | [], _, best, bestIdx => (best, bestIdx)
  | d :: ds, n, best, bestIdx =>
    match d with
    | none => findLeastRecentAux ds (n + 1) best bestIdx
    | some t =>
      match best with
      | none => findLeastRecentAux ds (n + 1) (some t) (n : Int)
      | some b =>
        if t < b then findLeastRecentAux ds (n + 1) (some t) (n : Int)
        else findLeastRecentAux ds (n + 1) (some b) bestIdx

/-- Source `findLeastRecentSlotIndex` (inner function of `acquireSlot`):
index of the least recently used slot, `-1` when no slot has a comparable
timestamp. -/
def findLeastRecentSlotIndex (usage : List (Option Nat)) : Int :=
  (findLeastRecentAux usage 0 none (-1)).2

/-- Source `allocateSlot` (inner function of `acquireSlot`): writes
`cacheKey` into `slots[index]`, stamps `slotsUsage[index]` with the
current time, and returns the index. -/
def allocateSlot (cacheKey : String) (now : Nat) (i : Int) (s : SlotPool) :
    Int × SlotPool :=
  (i, ⟨jsArraySet s.slots i cacheKey, jsArraySet s.slotsUsage i now⟩)

/-- Source `acquireSlot(cacheKey)`: reuse an existing slot for the key if
one exists, else the first available (`undefined`) slot, else the least
recently used slot.  The timestamp `now` stands for `new Date()`. -/
def acquireSlot (cacheKey : String) (now : Nat) (s : SlotPool) : Int × SlotPool :=
  let existingIndex := findIndexJS (fun k => k == some cacheKey) s.slots
  if existingIndex ≠ -1 then
    allocateSlot cacheKey now existingIndex s
  else
    let firstAvailableIndex := findIndexJS (fun k => k == none) s.slots
    if firstAvailableIndex ≠ -1 then
      allocateSlot cacheKey now firstAvailableIndex s
    else
      allocateSlot cacheKey now (findLeastRecentSlotIndex s.slotsUsage) s

/-- Source `releaseSlot(index)`: `delete` on both arrays at `index`,
unconditionally and without any range check. -/
def releaseSlot (i : Int) (s : SlotPool) : SlotPool :=
  ⟨jsArrayDelete s.slots i, jsArrayDelete s.slotsUsage i⟩

/-- Source `releaseSlots()`: `fill(undefined)` on both arrays; length is
unchanged, every element becomes `undefined`. -/
def releaseSlots (s : SlotPool) : SlotPool :=
  ⟨List.replicate s.slots.length none, List.replicate s.slotsUsage.length none⟩

/-- The used-slot count computed by `updateSlotsAvailability`: the number
of values of `slots` that are strings (`typeof name === "string"`). -/
def usedSlots (s : SlotPool) : Nat :=
  (s.slots.filter (fun k => k.isSome)).length

/-- The figure `updateSlotsAvailability` renders into the
`slot_manager_slots_available` element: the source writes `slots.length`
there, i.e. the total capacity. -/
def displayedAvailableSlots (s : SlotPool) : Nat := s.slots.length

/-- Pool states reachable from the initial empty pool by the operations
of the source, with arbitrary timestamps for the `new Date()` calls. -/
inductive Reachable : SlotPool → Prop
  | init : Reachable emptyPool
  | resize (n : Nat) {s : SlotPool} : Reachable s → Reachable (initializeSlots n s)
  | acquire (k : String) (now : Nat) {s : SlotPool} :
      Reachable s → Reachable (acquireSlot k now s).2
  | release (i : Int) {s : SlotPool} : Reachable s → Reachable (releaseSlot i s)
  | releaseAll {s : SlotPool} : Reachable s → Reachable (releaseSlots s)

/-- The state invariant maintained by every operation: the two arrays
stay the same length, a slot holds a key exactly when it carries a
timestamp, and no key occupies two distinct slots. -/
def PoolInv (s : SlotPool) : Prop :=
  s.slots.length = s.slotsUsage.length ∧
  (∀ (i : Nat) (k : String), s.slots[i]? = some (some k) →
    ∃ t, s.slotsUsage[i]? = some (some t)) ∧
  (∀ (i : Nat) (t : Nat), s.slotsUsage[i]? = some (some t) →
    ∃ k, s.slots[i]? = some (some k)) ∧
  (∀ (i j : Nat) (ki kj : String), i ≠ j → s.slots[i]? = some (some ki) →
    s.slots[j]? = some (some kj) → ki ≠ kj)

/-- Loop invariant of the `forEach` scan in `findLeastRecentSlotIndex`:
after processing the prefix `pre`, an accumulator `(none, bi)` means no
comparable timestamp was seen (and `bi` still is the initial `-1`), while
`(some m, bi)` means `bi` points at the first slot of `pre` carrying the
minimum timestamp `m`. -/
def LruAcc (pre : List (Option Nat)) : Option Nat × Int → Prop
  | (none, bi) => bi = -1 ∧ ∀ (i t : Nat), pre[i]? ≠ some (some t)
  | (some m, bi) => ∃ j : Nat, bi = (j : Int) ∧ j < pre.length ∧
      pre[j]? = some (some m) ∧
      (∀ (i t : Nat), pre[i]? = some (some t) → m ≤ t) ∧
      (∀ (i t : Nat), i < j → pre[i]? = some (some t) → m < t)

/-! ### Basic facts about the JavaScript array primitives -/

theorem getElem?_append_singleton (pre : List (Option α)) (x : Option α) (i : Nat) :
    (pre ++ [x])[i]? =
      if i < pre.length then pre[i]? else if i = pre.length then some x else none := by
  rw [List.getElem?_append]
  rcases Nat.lt_trichotomy i pre.length with h | h | h
  · simp [h]
  · simp [h]
  · have h1 : ¬ i < pre.length := by omega
    have h2 : i ≠ pre.length := by omega
    have h3 : 1 ≤ i - pre.length := by omega
    simp only [h1, if_false, h2]
    rw [List.getElem?_eq_none (by simpa using h3)]

theorem length_setLength (n : Nat) (l : List (Option α)) :
    (setLength n l).length = n := by
  simp [setLength]
  omega

theorem getElem?_setLength (n : Nat) (l : List (Option α)) (j : Nat) :
    (setLength n l)[j]? =
      if j < n then (if j < l.length then l[j]? else some none) else none := by
  unfold setLength
  rw [List.getElem?_append]
  have hlen : (l.take n).length = min n l.length := List.length_take n l
  rcases Nat.lt_or_ge j n with hn | hn
  · rcases Nat.lt_or_ge j l.length with hl | hl
    · have ht : j < (l.take n).length := by rw [hlen]; omega
      simp only [ht, if_true, hn, hl]
      rw [List.getElem?_take]
      simp [hn]
    · have ht : ¬ j < (l.take n).length := by rw [hlen]; omega
      simp only [ht, if_false, hn, if_true]
      have hnl : ¬ j < l.length := by omega
      simp only [hnl, if_false]
      rw [List.getElem?_replicate, hlen]
      have hr : j - min n l.length < n - l.length := by omega
      simp [hr]
  · have ht : ¬ j < (l.take n).length := by rw [hlen]; omega
    simp only [ht, if_false]
    rw [List.getElem?_replicate, hlen]
    have hr : ¬ j - min n l.length < n - l.length := by omega
    have hnn : ¬ j < n := by omega
    simp only [hr, if_false, hnn]

theorem jsArraySet_neg (l : List (Option α)) (i : Int) (v : α) (h : i < 0) :
    jsArraySet l i v = l := by
  simp [jsArraySet, h]

theorem jsArraySet_inRange (l : List (Option α)) (i : Int) (v : α)
    (h0 : 0 ≤ i) (h1 : i.toNat < l.length) :
    jsArraySet l i v = l.set i.toNat (some v) := by
  have : ¬ i < 0 := by omega
  simp [jsArraySet, this, h1]

theorem getElem?_jsArraySet (l : List (Option α)) (i : Int) (v : α) (j : Nat)
    (h0 : 0 ≤ i) :
    (jsArraySet l i v)[j]? =
      if j = i.toNat then some (some v)
      else if j < l.length then l[j]?
      else if j < i.toNat then some none else none := by
  have hneg : ¬ i < 0 := by omega
  unfold jsArraySet
  simp only [hneg, if_false]
  rcases Nat.lt_or_ge i.toNat l.length with hin | hout
  · simp only [hin, if_true]
    rcases Decidable.em (j = i.toNat) with he | he
    · subst he
      simp [List.getElem?_set_self, hin]
    · rw [List.getElem?_set_ne (by omega)]
      rcases Nat.lt_or_ge j l.length with hj | hj
      · simp [hj, he]
      · have h1 : ¬ j < l.length := by omega
        have h2 : ¬ j < i.toNat := by omega
        simp [he, h1, h2, List.getElem?_eq_none hj]
  · have : ¬ i.toNat < l.length := by omega
    simp only [this, if_false]
    rw [List.append_assoc, List.getElem?_append]
    rcases Nat.lt_or_ge j l.length with hj | hj
    · have hne : j ≠ i.toNat := by omega
      simp [hj, hne]
    · have h1 : ¬ j < l.length := by omega
      simp only [h1, if_false]
      rw [getElem?_append_singleton]
      simp only [List.length_replicate]
      rcases Decidable.em (j = i.toNat) with he | he
      · subst he
        have h2 : ¬ i.toNat - l.length < i.toNat - l.length := by omega
        have h3 : i.toNat - l.length = i.toNat - l.length := rfl
        simp [h2]
      · rcases Nat.lt_or_ge j i.toNat with hlt | hge
        · have h2 : j - l.length < i.toNat - l.length := by omega
          simp [he, h2, hlt]
        · have h2 : ¬ j - l.length < i.toNat - l.length := by omega
          have h3 : j - l.length ≠ i.toNat - l.length := by omega
          have h4 : ¬ j < i.toNat := by omega
          simp [he, h2, h3, h4]

theorem length_jsArrayDelete (l : List (Option α)) (i : Int) :
    (jsArrayDelete l i).length = l.length := by
  unfold jsArrayDelete
  split
  · rfl
  · split
    · simp
    · rfl

theorem jsArrayDelete_inRange (l : List (Option α)) (i : Int)
    (h0 : 0 ≤ i) (h1 : i.toNat < l.length) :
    jsArrayDelete l i = l.set i.toNat none := by
  have : ¬ i < 0 := by omega
  simp [jsArrayDelete, this, h1]

theorem jsArrayDelete_outOfRange (l : List (Option α)) (i : Int)
    (h : i < 0 ∨ l.length ≤ i.toNat) :
    jsArrayDelete l i = l := by
  unfold jsArrayDelete
  rcases h with h | h
  · simp [h]
  · have : ¬ i.toNat < l.length := by omega
    split
    · rfl
    · simp [this]

/-! ### Characterization of the `findIndex` scans -/

theorem findIndexAux_eq_neg_one (p : Option String → Bool) (l : List (Option String)) :
    ∀ n : Nat, findIndexAux p l n = -1 ↔ ∀ x ∈ l, p x = false := by
  induction l with
  | nil => intro n; simp [findIndexAux]
  | cons x xs ih =>
    intro n
    by_cases hx : p x
    · simp only [findIndexAux, hx, if_true]
      constructor
      · intro h
        exfalso
        omega
      · intro h
        exact absurd (h x (by simp)) (by simp [hx])
    · simp only [findIndexAux, hx, Bool.false_eq_true, if_false]
      rw [ih (n + 1)]
      constructor
      · intro h y hy
        rcases List.mem_cons.mp hy with rfl | hy'
        · simpa using hx
        · exact h y hy'
      · intro h y hy
        exact h y (List.mem_cons_of_mem x hy)

theorem findIndexJS_eq_neg_one (p : Option String → Bool) (l : List (Option String)) :
    findIndexJS p l = -1 ↔ ∀ (j : Nat) (y : Option String), l[j]? = some y → p y = false := by
  rw [findIndexJS, findIndexAux_eq_neg_one]
  constructor
  · intro h j y hj
    exact h y (List.mem_iff_getElem?.mpr ⟨j, hj⟩)
  · intro h y hy
    rcases List.mem_iff_getElem?.mp hy with ⟨j, hj⟩
    exact h j y hj

theorem findIndexAux_found (p : Option String → Bool) (l : List (Option String)) :
    ∀ n : Nat, findIndexAux p l n ≠ -1 →
      ∃ j : Nat, findIndexAux p l n = ((n + j : Nat) : Int) ∧ j < l.length ∧
        (∃ x, l[j]? = some x ∧ p x = true) ∧
        ∀ (i : Nat) (y : Option String), i < j → l[i]? = some y → p y = false := by
  induction l with
  | nil => intro n h; simp [findIndexAux] at h
  | cons x xs ih =>
    intro n h
    by_cases hx : p x
    · refine ⟨0, ?_, by simp, ⟨x, by simp, hx⟩, ?_⟩
      · simp [findIndexAux, hx]
      · intro i y hi _
        exact absurd hi (Nat.not_lt_zero i)
    · simp only [findIndexAux, hx, Bool.false_eq_true, if_false] at h ⊢
      rcases ih (n + 1) h with ⟨j, hval, hlt, ⟨x', hx', hp'⟩, hleast⟩
      refine ⟨j + 1, ?_, by simpa using hlt, ⟨x', by simpa using hx', hp'⟩, ?_⟩
      · rw [hval]
        congr 1
        omega
      · intro i y hi hiy
        cases i with
        | zero =>
          simp only [List.getElem?_cons_zero, Option.some_inj] at hiy
          subst hiy
          simpa using hx
        | succ i' =>
          simp only [List.getElem?_cons_succ] at hiy
          exact hleast i' y (by omega) hiy

theorem findIndexJS_found (p : Option String → Bool) (l : List (Option String))
    (h : findIndexJS p l ≠ -1) :
    ∃ j : Nat, findIndexJS p l = (j : Int) ∧ j < l.length ∧
      (∃ x, l[j]? = some x ∧ p x = true) ∧
      ∀ (i : Nat) (y : Option String), i < j → l[i]? = some y → p y = false := by
  rcases findIndexAux_found p l 0 h with ⟨j, hval, hlt, hx, hleast⟩
  exact ⟨j, by simpa using hval, hlt, hx, hleast⟩

theorem findIndexAux_least (p : Option String → Bool) (l : List (Option String)) :
    ∀ (j : Nat) (x : Option String) (n : Nat), l[j]? = some x → p x = true →
      (∀ (i : Nat) (y : Option String), i < j → l[i]? = some y → p y = false) →
      findIndexAux p l n = ((n + j : Nat) : Int) := by
  induction l with
  | nil => intro j x n hj; simp at hj
  | cons a as ih =>
    intro j x n hj hp hleast
    cases j with
    | zero =>
      simp only [List.getElem?_cons_zero, Option.some_inj] at hj
      subst hj
      simp [findIndexAux, hp]
    | succ j' =>
      simp only [List.getElem?_cons_succ] at hj
      have ha : p a = false := hleast 0 a (by omega) (by simp)
      simp only [findIndexAux, ha, Bool.false_eq_true, if_false]
      have := ih j' x (n + 1) hj hp (fun i y hi hiy =>
        hleast (i + 1) y (by omega) (by simpa using hiy))
      rw [this]
      congr 1
      omega

theorem findIndexJS_least (p : Option String → Bool) (l : List (Option String))
    (j : Nat) (x : Option String) (hj : l[j]? = some x) (hp : p x = true)
    (hleast : ∀ (i : Nat) (y : Option String), i < j → l[i]? = some y → p y = false) :
    findIndexJS p l = (j : Int) := by
  have := findIndexAux_least p l j x 0 hj hp hleast
  simpa using this

/-! ### Characterization of the LRU scan -/

theorem lruAcc_append_none (pre : List (Option Nat)) (acc : Option Nat × Int)
    (h : LruAcc pre acc) : LruAcc (pre ++ [none]) acc := by
  obtain ⟨best, bi⟩ := acc
  cases best with
  | none =>
    obtain ⟨hbi, hnone⟩ := h
    refine ⟨hbi, fun i t hit => ?_⟩
    rw [getElem?_append_singleton] at hit
    split at hit
    · exact hnone i t hit
    · split at hit <;> simp_all
  | some m =>
    obtain ⟨j, hbi, hj, hval, hmin, hfirst⟩ := h
    refine ⟨j, hbi, by simp; omega, ?_, ?_, ?_⟩
    · rw [getElem?_append_singleton]
      simp [hj, hval]
    · intro i t hit
      rw [getElem?_append_singleton] at hit
      split at hit
      · exact hmin i t hit
      · split at hit <;> simp_all
    · intro i t hi hit
      rw [getElem?_append_singleton] at hit
      split at hit
      · exact hfirst i t hi hit
      · split at hit <;> simp_all

theorem lruAcc_append_some_fresh (pre : List (Option Nat)) (t : Nat) (bi : Int)
    (h : LruAcc pre (none, bi)) :
    LruAcc (pre ++ [some t]) (some t, (pre.length : Int)) := by
  obtain ⟨hbi, hnone⟩ := h
  refine ⟨pre.length, rfl, by simp, ?_, ?_, ?_⟩
  · rw [getElem?_append_singleton]
    simp
  · intro i u hiu
    rw [getElem?_append_singleton] at hiu
    split at hiu
    · exact absurd hiu (hnone i u)
    · split at hiu <;> simp_all
  · intro i u hi hiu
    rw [getElem?_append_singleton] at hiu
    have : i < pre.length := by omega
    simp only [this, if_true] at hiu
    exact absurd hiu (hnone i u)

theorem lruAcc_append_some_lt (pre : List (Option Nat)) (t b : Nat) (bi : Int)
    (h : LruAcc pre (some b, bi)) (hlt : t < b) :
    LruAcc (pre ++ [some t]) (some t, (pre.length : Int)) := by
  obtain ⟨j, hbi, hj, hval, hmin, hfirst⟩ := h
  refine ⟨pre.length, rfl, by simp, ?_, ?_, ?_⟩
  · rw [getElem?_append_singleton]
    simp
  · intro i u hiu
    rw [getElem?_append_singleton] at hiu
    split at hiu
    · have := hmin i u hiu
      omega
    · split at hiu <;> simp_all
  · intro i u hi hiu
    rw [getElem?_append_singleton] at hiu
    have hip : i < pre.length := by omega
    simp only [hip, if_true] at hiu
    have := hmin i u hiu
    omega

theorem lruAcc_append_some_ge (pre : List (Option Nat)) (t b : Nat) (bi : Int)
    (h : LruAcc pre (some b, bi)) (hge : ¬ t < b) :
    LruAcc (pre ++ [some t]) (some b, bi) := by
  obtain ⟨j, hbi, hj, hval, hmin, hfirst⟩ := h
  refine ⟨j, hbi, by simp; omega, ?_, ?_, ?_⟩
  · rw [getElem?_append_singleton]
    simp [hj, hval]
  · intro i u hiu
    rw [getElem?_append_singleton] at hiu
    split at hiu
    · exact hmin i u hiu
    · split at hiu
      · have : u = t := by simp_all
        omega
      · cases hiu
  · intro i u hi hiu
    rw [getElem?_append_singleton] at hiu
    have hip : i < pre.length := by omega
    simp only [hip, if_true] at hiu
    exact hfirst i u hi hiu

theorem findLeastRecentAux_spec (l : List (Option Nat)) :
    ∀ (pre : List (Option Nat)) (best : Option Nat) (bi : Int),
      LruAcc pre (best, bi) →
      LruAcc (pre ++ l) (findLeastRecentAux l pre.length best bi) := by
  induction l with
  | nil =>
    intro pre best bi h
    simpa [findLeastRecentAux] using h
  | cons d ds ih =>
    intro pre best bi h
    have happ : pre ++ d :: ds = (pre ++ [d]) ++ ds := by simp
    have hlen : (pre ++ [d]).length = pre.length + 1 := by simp
    rw [happ]
    cases d with
    | none =>
      have h1 : LruAcc (pre ++ [none]) (best, bi) := lruAcc_append_none pre _ h
      have := ih (pre ++ [none]) best bi h1
      rw [hlen] at this
      simpa [findLeastRecentAux] using this
    | some t =>
      cases best with
      | none =>
        have h1 := lruAcc_append_some_fresh pre t bi h
        have := ih (pre ++ [some t]) (some t) (pre.length : Int) h1
        rw [hlen] at this
        simpa [findLeastRecentAux] using this
      | some b =>
        by_cases hlt : t < b
        · have h1 := lruAcc_append_some_lt pre t b bi h hlt
          have := ih (pre ++ [some t]) (some t) (pre.length : Int) h1
          rw [hlen] at this
          simpa [findLeastRecentAux, hlt] using this
        · have h1 := lruAcc_append_some_ge pre t b bi h hlt
          have := ih (pre ++ [some t]) (some b) bi h1
          rw [hlen] at this
          simpa [findLeastRecentAux, hlt] using this

theorem findLeastRecent_spec (usage : List (Option Nat)) :
    LruAcc usage (findLeastRecentAux usage 0 none (-1)) := by
  have h0 : LruAcc ([] : List (Option Nat)) (none, -1) := ⟨rfl, by simp⟩
  have := findLeastRecentAux_spec usage [] none (-1) h0
  simpa using this

theorem findLeastRecentSlotIndex_spec (usage : List (Option Nat)) :
    (findLeastRecentSlotIndex usage = -1 ∧
      ∀ (i t : Nat), usage[i]? ≠ some (some t)) ∨
    (∃ j m : Nat, findLeastRecentSlotIndex usage = (j : Int) ∧ j < usage.length ∧
      usage[j]? = some (some m) ∧
      (∀ (i t : Nat), usage[i]? = some (some t) → m ≤ t) ∧
      (∀ (i t : Nat), i < j → usage[i]? = some (some t) → m < t)) := by
  have h := findLeastRecent_spec usage
  unfold findLeastRecentSlotIndex
  rcases hr : findLeastRecentAux usage 0 none (-1) with ⟨best, bi⟩
  rw [hr] at h
  cases best with
  | none =>
    obtain ⟨hbi, hnone⟩ := h
    exact Or.inl ⟨by simp [hbi], hnone⟩
  | some m =>
    obtain ⟨j, hbi, hj, hval, hmin, hfirst⟩ := h
    exact Or.inr ⟨j, m, by simp [hbi], hj, hval, hmin, hfirst⟩

/-! ### Case analysis of `acquireSlot` -/

theorem acquireSlot_eq_allocate (k : String) (now : Nat) (s : SlotPool) :
    acquireSlot k now s = allocateSlot k now (acquireSlot k now s).1 s := by
  simp only [acquireSlot]
  split
  · rfl
  · split
    · rfl
    · rfl

theorem acquireSlot_index_cases (k : String) (now : Nat) (s : SlotPool) :
    (∃ j : Nat, (acquireSlot k now s).1 = (j : Int) ∧ j < s.slots.length ∧
        s.slots[j]? = some (some k) ∧
        (∀ (i : Nat) (y : Option String), i < j → s.slots[i]? = some y → y ≠ some k)) ∨
    ((∀ (j : Nat) (y : Option String), s.slots[j]? = some y → y ≠ some k) ∧
      ∃ j : Nat, (acquireSlot k now s).1 = (j : Int) ∧ j < s.slots.length ∧
        s.slots[j]? = some none ∧
        (∀ (i : Nat) (y : Option String), i < j → s.slots[i]? = some y → y ≠ none)) ∨
    ((∀ (j : Nat) (y : Option String), s.slots[j]? = some y → y ≠ some k) ∧
      (∀ j : Nat, s.slots[j]? ≠ some none) ∧
      (acquireSlot k now s).1 = findLeastRecentSlotIndex s.slotsUsage) := by
  by_cases h1 : findIndexJS (fun x => x == some k) s.slots = -1
  · have hnok : ∀ (j : Nat) (y : Option String), s.slots[j]? = some y → y ≠ some k := by
      intro j y hj hy
      subst hy
      have := (findIndexJS_eq_neg_one _ _).mp h1 j _ hj
      simp at this
    by_cases h2 : findIndexJS (fun x => x == none) s.slots = -1
    · right; right
      refine ⟨hnok, ?_, ?_⟩
      · intro j hj
        have := (findIndexJS_eq_neg_one _ _).mp h2 j _ hj
        simp at this
      · simp [acquireSlot, h1, h2, allocateSlot]
    · right; left
      rcases findIndexJS_found _ _ h2 with ⟨j, hval, hlt, ⟨x, hx, hpx⟩, hleast⟩
      have hxn : x = none := by simpa using hpx
      subst hxn
      have hne : ((j : Int)) ≠ -1 := by omega
      refine ⟨hnok, j, ?_, hlt, hx, ?_⟩
      · simp [acquireSlot, h1, hval, hne, allocateSlot]
      · intro i y hi hiy hy
        subst hy
        have := hleast i none hi hiy
        simp at this
  · left
    rcases findIndexJS_found _ _ h1 with ⟨j, hval, hlt, ⟨x, hx, hpx⟩, hleast⟩
    have hxk : x = some k := by simpa using hpx
    subst hxk
    have hne : ((j : Int)) ≠ -1 := by omega
    refine ⟨j, ?_, hlt, hx, ?_⟩
    · simp [acquireSlot, hval, hne, allocateSlot]
    · intro i y hi hiy hy
      subst hy
      have := hleast i (some k) hi hiy
      simp at this

/-! ### The reachable-state invariant -/

theorem slotPool_eta (s : SlotPool) : (⟨s.slots, s.slotsUsage⟩ : SlotPool) = s := rfl

theorem poolInv_empty : PoolInv emptyPool := by
  refine ⟨rfl, ?_, ?_, ?_⟩
  · intro i k h
    simp [emptyPool] at h
  · intro i t h
    simp [emptyPool] at h
  · intro i j ki kj hne hi hj
    simp [emptyPool] at hi

theorem poolInv_initializeSlots (n : Nat) (s : SlotPool) (h : PoolInv s) :
    PoolInv (initializeSlots n s) := by
  obtain ⟨hlen, hos, hso, hnd⟩ := h
  refine ⟨?_, ?_, ?_, ?_⟩
  · simp [initializeSlots, length_setLength]
  · intro i k hi
    simp only [initializeSlots] at hi ⊢
    rw [getElem?_setLength] at hi
    split at hi
    · rename_i hin
      split at hi
      · rename_i hil
        obtain ⟨t, ht⟩ := hos i k hi
        refine ⟨t, ?_⟩
        rw [getElem?_setLength]
        have hiu : i < s.slotsUsage.length := by omega
        simp [hin, hiu, ht]
      · simp at hi
    · cases hi
  · intro i t hi
    simp only [initializeSlots] at hi ⊢
    rw [getElem?_setLength] at hi
    split at hi
    · rename_i hin
      split at hi
      · rename_i hil
        obtain ⟨k, hk⟩ := hso i t hi
        refine ⟨k, ?_⟩
        rw [getElem?_setLength]
        have his : i < s.slots.length := by omega
        simp [hin, his, hk]
      · simp at hi
    · cases hi
  · intro i j ki kj hne hi hj
    simp only [initializeSlots] at hi hj
    rw [getElem?_setLength] at hi hj
    split at hi
    · split at hi
      · split at hj
        · split at hj
          · exact hnd i j ki kj hne hi hj
          · simp at hj
        · cases hj
      · simp at hi
    · cases hi

theorem poolInv_set (s : SlotPool) (h : PoolInv s) (j : Nat) (hj : j < s.slots.length)
    (k : String) (now : Nat)
    (hfresh : (∀ (i : Nat) (y : Option String), s.slots[i]? = some y → y ≠ some k) ∨
      s.slots[j]? = some (some k)) :
    PoolInv ⟨s.slots.set j (some (k : String)), s.slotsUsage.set j (some now)⟩ := by
  obtain ⟨hlen, hos, hso, hnd⟩ := h
  have hju : j < s.slotsUsage.length := by omega
  refine ⟨by simp [hlen], ?_, ?_, ?_⟩
  · intro i k' hi
    by_cases hij : i = j
    · subst hij
      exact ⟨now, by simp [List.getElem?_set_self, hju]⟩
    · rw [List.getElem?_set_ne (by omega)] at hi
      obtain ⟨t, ht⟩ := hos i k' hi
      exact ⟨t, by rw [List.getElem?_set_ne (by omega)]; exact ht⟩
  · intro i t hi
    by_cases hij : i = j
    · subst hij
      exact ⟨k, by simp [List.getElem?_set_self, hj]⟩
    · rw [List.getElem?_set_ne (by omega)] at hi
      obtain ⟨k', hk⟩ := hso i t hi
      exact ⟨k', by rw [List.getElem?_set_ne (by omega)]; exact hk⟩
  · intro i1 i2 k1 k2 hne hi1 hi2
    by_cases h1j : i1 = j
    · by_cases h2j : i2 = j
      · exact absurd (h1j.trans h2j.symm) hne
      · rw [h1j, List.getElem?_set_self hj] at hi1
        have hk1 : k1 = k := by simpa using hi1.symm
        rw [List.getElem?_set_ne (by omega)] at hi2
        rw [hk1]
        rcases hfresh with hnok | hatj
        · intro he
          exact hnok i2 (some k2) hi2 (by rw [he])
        · exact hnd j i2 k k2 (by omega) hatj hi2
    · rw [List.getElem?_set_ne (by omega)] at hi1
      by_cases h2j : i2 = j
      · rw [h2j, List.getElem?_set_self hj] at hi2
        have hk2 : k2 = k := by simpa using hi2.symm
        rw [hk2]
        rcases hfresh with hnok | hatj
        · intro he
          exact hnok i1 (some k1) hi1 (by rw [he])
        · exact hnd i1 j k1 k (by omega) hi1 hatj
      · rw [List.getElem?_set_ne (by omega)] at hi2
        exact hnd i1 i2 k1 k2 hne hi1 hi2

theorem poolInv_acquireSlot (k : String) (now : Nat) (s : SlotPool) (h : PoolInv s) :
    PoolInv (acquireSlot k now s).2 := by
  have hlen := h.1
  have hall := congrArg Prod.snd (acquireSlot_eq_allocate k now s)
  rcases acquireSlot_index_cases k now s with
    ⟨j, hidx, hjlt, hjval, hjleast⟩ | ⟨hnok, j, hidx, hjlt, hjval, hjleast⟩ |
    ⟨hnok, hnone, hidx⟩
  · rw [hidx] at hall
    have htn : ((j : Int)).toNat = j := by simp
    have e1 : jsArraySet s.slots ((j : Int)) k = s.slots.set j (some k) := by
      rw [jsArraySet_inRange _ _ _ (by omega) (by rw [htn]; exact hjlt), htn]
    have e2 : jsArraySet s.slotsUsage ((j : Int)) now = s.slotsUsage.set j (some now) := by
      rw [jsArraySet_inRange _ _ _ (by omega) (by rw [htn]; omega), htn]
    rw [hall]
    show PoolInv ⟨jsArraySet s.slots ((j : Int)) k, jsArraySet s.slotsUsage ((j : Int)) now⟩
    rw [e1, e2]
    exact poolInv_set s h j hjlt k now (Or.inr hjval)
  · rw [hidx] at hall
    have htn : ((j : Int)).toNat = j := by simp
    have e1 : jsArraySet s.slots ((j : Int)) k = s.slots.set j (some k) := by
      rw [jsArraySet_inRange _ _ _ (by omega) (by rw [htn]; exact hjlt), htn]
    have e2 : jsArraySet s.slotsUsage ((j : Int)) now = s.slotsUsage.set j (some now) := by
      rw [jsArraySet_inRange _ _ _ (by omega) (by rw [htn]; omega), htn]
    rw [hall]
    show PoolInv ⟨jsArraySet s.slots ((j : Int)) k, jsArraySet s.slotsUsage ((j : Int)) now⟩
    rw [e1, e2]
    exact poolInv_set s h j hjlt k now (Or.inl (fun i y hy hk => hnok i y hy hk))
  · rcases findLeastRecentSlotIndex_spec s.slotsUsage with
      ⟨hneg, hempty⟩ | ⟨j, m, hj, hjlt, hjval, hmin, hfirst⟩
    · rw [hidx, hneg] at hall
      have e1 : jsArraySet s.slots (-1) k = s.slots := jsArraySet_neg _ _ _ (by norm_num)
      have e2 : jsArraySet s.slotsUsage (-1) now = s.slotsUsage :=
        jsArraySet_neg _ _ _ (by norm_num)
      rw [hall]
      show PoolInv ⟨jsArraySet s.slots (-1) k, jsArraySet s.slotsUsage (-1) now⟩
      rw [e1, e2, slotPool_eta]
      exact h
    · rw [hidx, hj] at hall
      have hjs : j < s.slots.length := by omega
      have htn : ((j : Int)).toNat = j := by simp
      have e1 : jsArraySet s.slots ((j : Int)) k = s.slots.set j (some k) := by
        rw [jsArraySet_inRange _ _ _ (by omega) (by rw [htn]; exact hjs), htn]
      have e2 : jsArraySet s.slotsUsage ((j : Int)) now = s.slotsUsage.set j (some now) := by
        rw [jsArraySet_inRange _ _ _ (by omega) (by rw [htn]; exact hjlt), htn]
      rw [hall]
      show PoolInv ⟨jsArraySet s.slots ((j : Int)) k, jsArraySet s.slotsUsage ((j : Int)) now⟩
      rw [e1, e2]
      exact poolInv_set s h j hjs k now (Or.inl (fun i y hy hk => hnok i y hy hk))

theorem poolInv_releaseSlot (i : Int) (s : SlotPool) (h : PoolInv s) :
    PoolInv (releaseSlot i s) := by
  obtain ⟨hlen, hos, hso, hnd⟩ := h
  by_cases hneg : i < 0
  · have e1 : jsArrayDelete s.slots i = s.slots := jsArrayDelete_outOfRange _ _ (Or.inl hneg)
    have e2 : jsArrayDelete s.slotsUsage i = s.slotsUsage :=
      jsArrayDelete_outOfRange _ _ (Or.inl hneg)
    show PoolInv ⟨jsArrayDelete s.slots i, jsArrayDelete s.slotsUsage i⟩
    rw [e1, e2, slotPool_eta]
    exact ⟨hlen, hos, hso, hnd⟩
  · by_cases hlt : i.toNat < s.slots.length
    · have e1 : jsArrayDelete s.slots i = s.slots.set i.toNat none :=
        jsArrayDelete_inRange _ _ (by omega) hlt
      have e2 : jsArrayDelete s.slotsUsage i = s.slotsUsage.set i.toNat none :=
        jsArrayDelete_inRange _ _ (by omega) (by omega)
      show PoolInv ⟨jsArrayDelete s.slots i, jsArrayDelete s.slotsUsage i⟩
      rw [e1, e2]
      have hltu : i.toNat < s.slotsUsage.length := by omega
      refine ⟨by simp [hlen], ?_, ?_, ?_⟩
      · intro i' k hi'
        by_cases hii : i' = i.toNat
        · rw [hii, List.getElem?_set_self hlt] at hi'
          simp at hi'
        · rw [List.getElem?_set_ne (by omega)] at hi'
          obtain ⟨t, ht⟩ := hos i' k hi'
          exact ⟨t, by rw [List.getElem?_set_ne (by omega)]; exact ht⟩
      · intro i' t hi'
        by_cases hii : i' = i.toNat
        · rw [hii, List.getElem?_set_self hltu] at hi'
          simp at hi'
        · rw [List.getElem?_set_ne (by omega)] at hi'
          obtain ⟨k, hk⟩ := hso i' t hi'
          exact ⟨k, by rw [List.getElem?_set_ne (by omega)]; exact hk⟩
      · intro i1 i2 k1 k2 hne h1 h2
        by_cases c1 : i1 = i.toNat
        · rw [c1, List.getElem?_set_self hlt] at h1
          simp at h1
        · by_cases c2 : i2 = i.toNat
          · rw [c2, List.getElem?_set_self hlt] at h2
            simp at h2
          · rw [List.getElem?_set_ne (by omega)] at h1
            rw [List.getElem?_set_ne (by omega)] at h2
            exact hnd i1 i2 k1 k2 hne h1 h2
    · have e1 : jsArrayDelete s.slots i = s.slots :=
        jsArrayDelete_outOfRange _ _ (Or.inr (by omega))
      have e2 : jsArrayDelete s.slotsUsage i = s.slotsUsage :=
        jsArrayDelete_outOfRange _ _ (Or.inr (by omega))
      show PoolInv ⟨jsArrayDelete s.slots i, jsArrayDelete s.slotsUsage i⟩
      rw [e1, e2, slotPool_eta]
      exact ⟨hlen, hos, hso, hnd⟩

theorem poolInv_releaseSlots (s : SlotPool) (h : PoolInv s) :
    PoolInv (releaseSlots s) := by
  obtain ⟨hlen, hos, hso, hnd⟩ := h
  refine ⟨by simp [releaseSlots, hlen], ?_, ?_, ?_⟩
  · intro i k hi
    simp only [releaseSlots] at hi
    rw [List.getElem?_replicate] at hi
    split at hi <;> simp at hi
  · intro i t hi
    simp only [releaseSlots] at hi
    rw [List.getElem?_replicate] at hi
    split at hi <;> simp at hi
  · intro i1 i2 k1 k2 hne h1 h2
    simp only [releaseSlots] at h1
    rw [List.getElem?_replicate] at h1
    split at h1 <;> simp at h1

theorem reachable_poolInv {s : SlotPool} (h : Reachable s) : PoolInv s := by
  induction h with
  | init => exact poolInv_empty
  | resize n hr ih => exact poolInv_initializeSlots _ _ ih
  | acquire k now hr ih => exact poolInv_acquireSlot _ _ _ ih
  | release i hr ih => exact poolInv_releaseSlot _ _ ih
  | releaseAll hr ih => exact poolInv_releaseSlots _ ih

/-! ### Claim theorems -/

/-- C1: `acquireSlot` selects in strict priority order: an index already
holding the key is reused (the first such index); otherwise the first
empty slot (lowest index) is selected; eviction can only be reached when
neither exists, since in the other two cases the selected index is
pinned.  On an entirely empty capacity-3 pool the keys a, b, c get
indices 0, 1, 2. -/
theorem claim_C1_acquire_priority (s : SlotPool) (k : String) (now : Nat) :
    (∀ j : Nat, s.slots[j]? = some (some k) →
      (∀ (i : Nat) (y : Option String), i < j → s.slots[i]? = some y → y ≠ some k) →
      (acquireSlot k now s).1 = (j : Int)) ∧
    (∀ j : Nat, (∀ (i : Nat) (y : Option String), s.slots[i]? = some y → y ≠ some k) →
      s.slots[j]? = some none →
      (∀ i : Nat, i < j → s.slots[i]? ≠ some none) →
      (acquireSlot k now s).1 = (j : Int)) ∧
    (acquireSlot "a" 1 (initializeSlots 3 emptyPool)).1 = 0 ∧
    (acquireSlot "b" 2 (acquireSlot "a" 1 (initializeSlots 3 emptyPool)).2).1 = 1 ∧
    (acquireSlot "c" 3
      (acquireSlot "b" 2 (acquireSlot "a" 1 (initializeSlots 3 emptyPool)).2).2).1 = 2 := by
  refine ⟨?_, ?_, by decide, by decide, by decide⟩
  · intro j hj hleast
    have hfind : findIndexJS (fun x => x == some k) s.slots = (j : Int) := by
      apply findIndexJS_least _ _ j (some k) hj (by simp)
      intro i y hi hiy
      have := hleast i y hi hiy
      simpa using this
    have hne : ((j : Int)) ≠ -1 := by omega
    simp [acquireSlot, hfind, hne, allocateSlot]
  · intro j hnok hj hleast
    have h1 : findIndexJS (fun x => x == some k) s.slots = -1 := by
      apply (findIndexJS_eq_neg_one _ _).mpr
      intro j' y hy
      have := hnok j' y hy
      simpa using this
    have h2 : findIndexJS (fun x => x == none) s.slots = (j : Int) := by
      apply findIndexJS_least _ _ j none hj (by simp)
      intro i y hi hiy
      rcases y with _ | v
      · exact absurd hiy (hleast i hi)
      · simp
    have hne : ((j : Int)) ≠ -1 := by omega
    simp [acquireSlot, h1, h2, hne, allocateSlot]

/-- Witness for C1: on the pool `[b, a]` the key a is reused at index 1. -/
theorem claim_C1_witness :
    (acquireSlot "a" 5 ⟨[some "b", some "a"], [some 1, some 2]⟩).1 = 1 := by
  apply (claim_C1_acquire_priority ⟨[some "b", some "a"], [some 1, some 2]⟩ "a" 5).1 1
  · decide
  · intro i y hi hiy
    have hi0 : i = 0 := by omega
    rw [hi0] at hiy
    have : y = some "b" := by simpa using hiy.symm
    rw [this]
    decide

/-- C3: every state reachable from the empty pool by resize, acquire,
release and releaseAll has no key occupying two distinct slots, and its
used-slot count never exceeds the capacity. -/
theorem claim_C3_no_duplicates_and_capacity_bound (s : SlotPool) (hreach : Reachable s) :
    (∀ (i j : Nat) (ki kj : String), i ≠ j → s.slots[i]? = some (some ki) →
      s.slots[j]? = some (some kj) → ki ≠ kj) ∧
    usedSlots s ≤ capacity s := by
  obtain ⟨hlen, hos, hso, hnd⟩ := reachable_poolInv hreach
  exact ⟨hnd, List.length_filter_le _ _⟩

/-- Witness for C3: the invariant holds at the reachable two-slot pool. -/
theorem claim_C3_witness :
    (∀ (i j : Nat) (ki kj : String), i ≠ j →
      (initializeSlots 2 emptyPool).slots[i]? = some (some ki) →
      (initializeSlots 2 emptyPool).slots[j]? = some (some kj) → ki ≠ kj) ∧
    usedSlots (initializeSlots 2 emptyPool) ≤ capacity (initializeSlots 2 emptyPool) :=
  claim_C3_no_duplicates_and_capacity_bound _ (Reachable.resize 2 Reachable.init)

/-- C4 counterexample: `acquireSlot` never raises.  On the capacity-0
pool it returns the sentinel index `-1` with the pool unchanged instead
of failing with a capacity-exhausted error, and with the empty key it
proceeds like any other key, allocating slot 0 (so the state is mutated,
not left unchanged by a failure). -/
theorem claim_C4_counterexample :
    acquireSlot "a" 7 emptyPool = (-1, emptyPool) ∧
    acquireSlot "" 7 (initializeSlots 1 emptyPool) =
      (0, ⟨[some ""], [some 7]⟩) := by
  constructor
  · rfl
  · rfl

/-- C4 amended: on a reachable pool of capacity 0, `acquireSlot` returns
`-1` and leaves the pool unchanged for every key; no error is raised and
an empty key is accepted like any other. -/
theorem claim_C4_amended (s : SlotPool) (k : String) (now : Nat)
    (hreach : Reachable s) (hcap : capacity s = 0) :
    acquireSlot k now s = (-1, s) := by
  have hlen := (reachable_poolInv hreach).1
  obtain ⟨sl, su⟩ := s
  simp only [capacity] at hcap
  simp only at hlen
  have hsl : sl = [] := List.length_eq_zero.mp hcap
  have hsu : su = [] := List.length_eq_zero.mp (by omega)
  subst hsl
  subst hsu
  rfl

/-- Witness for C4 amended: the initial empty pool has capacity 0, and
acquiring any key on it yields `-1` with the pool unchanged. -/
theorem claim_C4_amended_witness : acquireSlot "a" 3 emptyPool = (-1, emptyPool) :=
  claim_C4_amended emptyPool "a" 3 Reachable.init rfl

/-- C5: evaluation of the two figures `updateSlotsAvailability` renders,
on the pool `[a, empty]`: the used count is 1 (correct), but the figure
written into the availability display is `slots.length = 2`, not
`capacity - usedCount = 1` as the specification states. -/
theorem claim_C5_available_display :
    usedSlots ⟨[some "a", none], [some 0, none]⟩ = 1 ∧
    displayedAvailableSlots ⟨[some "a", none], [some 0, none]⟩ = 2 ∧
    displayedAvailableSlots ⟨[some "a", none], [some 0, none]⟩ ≠
      capacity ⟨[some "a", none], [some 0, none]⟩ -
        usedSlots ⟨[some "a", none], [some 0, none]⟩ := by
  refine ⟨rfl, rfl, ?_⟩
  decide

/-- C6 counterexample: `releaseSlot` performs no range check.  On a
capacity-1 pool, `releaseSlot 1` (= `release(capacity)`) and
`releaseSlot (-1)` both return normally with the state unchanged instead
of failing with an out-of-range error. -/
theorem claim_C6_counterexample :
    releaseSlot 1 ⟨[some "a"], [some 3]⟩ = ⟨[some "a"], [some 3]⟩ ∧
    releaseSlot (-1) ⟨[some "a"], [some 3]⟩ = ⟨[some "a"], [some 3]⟩ := by
  constructor
  · rfl
  · rfl

/-- C6 amended: for every index outside `[0, capacity)` — in particular
`release(capacity)` and `release(-1)` — `releaseSlot` does not error (it
is a total operation) and changes no occupant, timestamp, or capacity. -/
theorem claim_C6_amended (s : SlotPool) (i : Int)
    (hlen : s.slots.length = s.slotsUsage.length)
    (h : i < 0 ∨ (capacity s : Int) ≤ i) : releaseSlot i s = s := by
  simp only [capacity] at h
  show (⟨jsArrayDelete s.slots i, jsArrayDelete s.slotsUsage i⟩ : SlotPool) = s
  rcases h with hneg | hge
  · rw [jsArrayDelete_outOfRange _ _ (Or.inl hneg),
      jsArrayDelete_outOfRange _ _ (Or.inl hneg), slotPool_eta]
  · rw [jsArrayDelete_outOfRange _ _ (Or.inr (by omega)),
      jsArrayDelete_outOfRange _ _ (Or.inr (by omega)), slotPool_eta]

/-- Witness for C6 amended: releasing index 1 of a capacity-1 pool is a
no-op. -/
theorem claim_C6_amended_witness :
    releaseSlot 1 ⟨[some "a"], [some 3]⟩ = ⟨[some "a"], [some 3]⟩ :=
  claim_C6_amended ⟨[some "a"], [some 3]⟩ 1 rfl (Or.inr (by norm_num [capacity]))

/-- C7: `initializeSlots n` sets the capacity (and the timestamp array
length) to `n`, keeps occupant and timestamp untouched at every retained
index below `min(old capacity, n)`, discards everything at indices ≥ n,
and fills newly created indices with empty occupants and no timestamp;
the two concrete resize examples of the specification hold. -/
theorem claim_C7_resize_retains_entries (s : SlotPool) (n : Nat)
    (hlen : s.slots.length = s.slotsUsage.length) :
    capacity (initializeSlots n s) = n ∧
    (initializeSlots n s).slotsUsage.length = n ∧
    (∀ i : Nat, i < min (capacity s) n →
      (initializeSlots n s).slots[i]? = s.slots[i]? ∧
      (initializeSlots n s).slotsUsage[i]? = s.slotsUsage[i]?) ∧
    (∀ i : Nat, capacity s ≤ i → i < n →
      (initializeSlots n s).slots[i]? = some none ∧
      (initializeSlots n s).slotsUsage[i]? = some none) ∧
    initializeSlots 2 ⟨[some "a", some "b", some "c"], [some 1, some 2, some 3]⟩ =
      ⟨[some "a", some "b"], [some 1, some 2]⟩ ∧
    initializeSlots 4 ⟨[some "a", some "b"], [some 1, some 2]⟩ =
      ⟨[some "a", some "b", none, none], [some 1, some 2, none, none]⟩ := by
  refine ⟨?_, ?_, ?_, ?_, by decide, by decide⟩
  · simp [initializeSlots, capacity, length_setLength]
  · simp [initializeSlots, length_setLength]
  · intro i hi
    simp only [capacity] at hi
    have h1 : i < n := by omega
    have h2 : i < s.slots.length := by omega
    have h3 : i < s.slotsUsage.length := by omega
    constructor
    · simp only [initializeSlots]
      rw [getElem?_setLength]
      simp [h1, h2]
    · simp only [initializeSlots]
      rw [getElem?_setLength]
      simp [h1, h3]
  · intro i hge hlt
    simp only [capacity] at hge
    have h2 : ¬ i < s.slots.length := by omega
    have h3 : ¬ i < s.slotsUsage.length := by omega
    constructor
    · simp only [initializeSlots]
      rw [getElem?_setLength]
      simp [hlt, h2]
    · simp only [initializeSlots]
      rw [getElem?_setLength]
      simp [hlt, h3]

/-- Witness for C7: resizing the one-slot pool `[a]` to 2 slots. -/
theorem claim_C7_witness :
    capacity (initializeSlots 2 ⟨[some "a"], [some 1]⟩) = 2 ∧
    (initializeSlots 2 ⟨[some "a"], [some 1]⟩).slotsUsage.length = 2 ∧
    (∀ i : Nat, i < min (capacity ⟨[some "a"], [some 1]⟩) 2 →
      (initializeSlots 2 ⟨[some "a"], [some 1]⟩).slots[i]? =
        (⟨[some "a"], [some 1]⟩ : SlotPool).slots[i]? ∧
      (initializeSlots 2 ⟨[some "a"], [some 1]⟩).slotsUsage[i]? =
        (⟨[some "a"], [some 1]⟩ : SlotPool).slotsUsage[i]?) ∧
    (∀ i : Nat, capacity ⟨[some "a"], [some 1]⟩ ≤ i → i < 2 →
      (initializeSlots 2 ⟨[some "a"], [some 1]⟩).slots[i]? = some none ∧
      (initializeSlots 2 ⟨[some "a"], [some 1]⟩).slotsUsage[i]? = some none) ∧
    initializeSlots 2 ⟨[some "a", some "b", some "c"], [some 1, some 2, some 3]⟩ =
      ⟨[some "a", some "b"], [some 1, some 2]⟩ ∧
    initializeSlots 4 ⟨[some "a", some "b"], [some 1, some 2]⟩ =
      ⟨[some "a", some "b", none, none], [some 1, some 2, none, none]⟩ :=
  claim_C7_resize_retains_entries ⟨[some "a"], [some 1]⟩ 2 rfl

/-- Helper: setting a list entry that already holds `none` to `none`
changes nothing. -/
theorem set_none_of_getElem?_none (l : List (Option α)) (n : Nat)
    (h : l[n]? = some none) : l.set n none = l := by
  have hlt : n < l.length := by
    by_contra hc
    rw [List.getElem?_eq_none (by omega)] at h
    cases h
  apply List.ext_getElem?
  intro m
  by_cases hm : m = n
  · rw [hm, List.getElem?_set_self hlt, h]
  · rw [List.getElem?_set_ne (by omega)]

/-- C9: releasing an in-range, already-empty slot of a reachable pool
does not error and leaves the whole pool state unchanged, and releasing
the same in-range index twice equals releasing it once. -/
theorem claim_C9_release_idempotent (s : SlotPool) (i : Int) (hreach : Reachable s)
    (h0 : 0 ≤ i) (hlt : i.toNat < capacity s)
    (hempty : s.slots[i.toNat]? = some none) :
    releaseSlot i s = s ∧ releaseSlot i (releaseSlot i s) = releaseSlot i s := by
  obtain ⟨hlen, hos, hso, hnd⟩ := reachable_poolInv hreach
  simp only [capacity] at hlt
  have hltu : i.toNat < s.slotsUsage.length := by omega
  have husage : s.slotsUsage[i.toNat]? = some none := by
    obtain ⟨u, hu⟩ : ∃ u, s.slotsUsage[i.toNat]? = some u :=
      ⟨s.slotsUsage[i.toNat], List.getElem?_eq_getElem hltu⟩
    rcases u with _ | t
    · exact hu
    · obtain ⟨k', hk⟩ := hso i.toNat t hu
      rw [hempty] at hk
      simp at hk
  have hfirst : releaseSlot i s = s := by
    show (⟨jsArrayDelete s.slots i, jsArrayDelete s.slotsUsage i⟩ : SlotPool) = s
    rw [jsArrayDelete_inRange _ _ h0 hlt, jsArrayDelete_inRange _ _ h0 hltu,
      set_none_of_getElem?_none _ _ hempty, set_none_of_getElem?_none _ _ husage,
      slotPool_eta]
  refine ⟨hfirst, ?_⟩
  rw [hfirst]
  exact hfirst

/-- Witness for C9: releasing the empty slot 0 of the freshly resized
one-slot pool is a no-op, twice as well. -/
theorem claim_C9_witness :
    releaseSlot 0 (initializeSlots 1 emptyPool) = initializeSlots 1 emptyPool ∧
    releaseSlot 0 (releaseSlot 0 (initializeSlots 1 emptyPool)) =
      releaseSlot 0 (initializeSlots 1 emptyPool) :=
  claim_C9_release_idempotent (initializeSlots 1 emptyPool) 0
    (Reachable.resize 1 Reachable.init) (by norm_num) (by decide) (by decide)

/-- C10: on every reachable pool with positive capacity, `acquireSlot`
returns an index inside `[0, capacity)`: the `-1` sentinel of the LRU
scan is unreachable because a fully occupied pool has every slot
stamped. -/
theorem claim_C10_index_in_range (s : SlotPool) (k : String) (now : Nat)
    (hreach : Reachable s) (hcap : 0 < capacity s) :
    0 ≤ (acquireSlot k now s).1 ∧ (acquireSlot k now s).1 < (capacity s : Int) := by
  obtain ⟨hlen, hos, hso, hnd⟩ := reachable_poolInv hreach
  simp only [capacity] at hcap ⊢
  rcases acquireSlot_index_cases k now s with
    ⟨j, hidx, hjlt, _, _⟩ | ⟨_, j, hidx, hjlt, _, _⟩ | ⟨_, hnone, hidx⟩
  · rw [hidx]
    omega
  · rw [hidx]
    omega
  · obtain ⟨x, hx⟩ : ∃ x, s.slots[0]? = some x :=
      ⟨s.slots[0], List.getElem?_eq_getElem hcap⟩
    rcases x with _ | k0
    · exact absurd hx (hnone 0)
    · obtain ⟨t0, ht0⟩ := hos 0 k0 hx
      rcases findLeastRecentSlotIndex_spec s.slotsUsage with
        ⟨_, hempty⟩ | ⟨j, m, hj, hjlt, _, _, _⟩
      · exact absurd ht0 (hempty 0 t0)
      · rw [hidx, hj]
        omega

/-- Witness for C10: on the reachable empty two-slot pool the acquired
index is inside the range. -/
theorem claim_C10_witness :
    0 ≤ (acquireSlot "x" 7 (initializeSlots 2 emptyPool)).1 ∧
    (acquireSlot "x" 7 (initializeSlots 2 emptyPool)).1 <
      (capacity (initializeSlots 2 emptyPool) : Int) :=
  claim_C10_index_in_range (initializeSlots 2 emptyPool) "x" 7
    (Reachable.resize 2 Reachable.init) (by decide)

/-- C2: on a reachable pool, when the key is absent and no slot is
empty (capacity positive), `acquireSlot` selects an index carrying the
smallest `lastUsed` timestamp, and every earlier index carries a strictly
larger timestamp — so among ties the lowest index wins. -/
theorem claim_C2_lru_selects_oldest (s : SlotPool) (k : String) (now : Nat)
    (hreach : Reachable s) (hcap : 0 < capacity s)
    (hnok : ∀ i : Nat, s.slots[i]? ≠ some (some k))
    (hfull : ∀ i : Nat, s.slots[i]? ≠ some none) :
    ∃ j m : Nat, (acquireSlot k now s).1 = (j : Int) ∧ j < capacity s ∧
      s.slotsUsage[j]? = some (some m) ∧
      (∀ (i t : Nat), s.slotsUsage[i]? = some (some t) → m ≤ t) ∧
      (∀ (i t : Nat), i < j → s.slotsUsage[i]? = some (some t) → m < t) := by
  obtain ⟨hlen, hos, hso, hnd⟩ := reachable_poolInv hreach
  simp only [capacity] at hcap ⊢
  obtain ⟨x, hx⟩ : ∃ x, s.slots[0]? = some x :=
    ⟨s.slots[0], List.getElem?_eq_getElem hcap⟩
  rcases x with _ | k0
  · exact absurd hx (hfull 0)
  obtain ⟨t0, ht0⟩ := hos 0 k0 hx
  rcases acquireSlot_index_cases k now s with
    ⟨j, hidx, hjlt, hjval, _⟩ | ⟨_, j, hidx, hjlt, hjval, _⟩ | ⟨_, _, hidx⟩
  · exact absurd hjval (hnok j)
  · exact absurd hjval (hfull j)
  · rcases findLeastRecentSlotIndex_spec s.slotsUsage with
      ⟨_, hempty⟩ | ⟨j, m, hj, hjlt, hjval, hmin, hfirst⟩
    · exact absurd ht0 (hempty 0 t0)
    · exact ⟨j, m, by rw [hidx, hj], by omega, hjval, hmin, hfirst⟩

/-- Witness for C2: on the reachable full one-slot pool `[a]`, acquiring
the absent key b goes through the LRU scan and selects slot 0. -/
theorem claim_C2_witness :
    ∃ j m : Nat,
      (acquireSlot "b" 9 (acquireSlot "a" 5 (initializeSlots 1 emptyPool)).2).1 =
        (j : Int) ∧
      j < capacity (acquireSlot "a" 5 (initializeSlots 1 emptyPool)).2 ∧
      (acquireSlot "a" 5 (initializeSlots 1 emptyPool)).2.slotsUsage[j]? =
        some (some m) ∧
      (∀ (i t : Nat),
        (acquireSlot "a" 5 (initializeSlots 1 emptyPool)).2.slotsUsage[i]? =
          some (some t) → m ≤ t) ∧
      (∀ (i t : Nat), i < j →
        (acquireSlot "a" 5 (initializeSlots 1 emptyPool)).2.slotsUsage[i]? =
          some (some t) → m < t) := by
  apply claim_C2_lru_selects_oldest _ "b" 9
    (Reachable.acquire "a" 5 (Reachable.resize 1 Reachable.init)) (by decide)
  · intro i h
    have hs : (acquireSlot "a" 5 (initializeSlots 1 emptyPool)).2.slots = [some "a"] := rfl
    rw [hs] at h
    cases i with
    | zero => exact absurd h (by decide)
    | succ n =>
      rw [List.getElem?_eq_none (by simp)] at h
      cases h
  · intro i h
    have hs : (acquireSlot "a" 5 (initializeSlots 1 emptyPool)).2.slots = [some "a"] := rfl
    rw [hs] at h
    cases i with
    | zero => exact absurd h (by decide)
    | succ n =>
      rw [List.getElem?_eq_none (by simp)] at h
      cases h

/-- Helper: after writing `k` at index `j`, the first index holding `k`
is `j`, provided no index before `j` already held `k`. -/
theorem findIndexJS_jsArraySet_self (l : List (Option String)) (k : String) (j : Nat)
    (hsafe : ∀ (i : Nat) (y : Option String), i < j → l[i]? = some y → y ≠ some k) :
    findIndexJS (fun x => x == some k) (jsArraySet l ((j : Int)) k) = (j : Int) := by
  have htn : ((j : Int)).toNat = j := by simp
  apply findIndexJS_least _ _ j (some k)
  · rw [getElem?_jsArraySet _ _ _ _ (by omega), htn]
    simp
  · simp
  · intro i y hi hiy
    rw [getElem?_jsArraySet _ _ _ _ (by omega), htn] at hiy
    have hne : i ≠ j := by omega
    simp only [hne, if_false] at hiy
    rcases Nat.lt_or_ge i l.length with hil | hil
    · rw [if_pos hil] at hiy
      have := hsafe i y hi hiy
      simpa using this
    · rw [if_neg (by omega), if_pos hi] at hiy
      have hy : y = none := by simpa using hiy.symm
      rw [hy]
      simp

/-- C8: every `acquireSlot` whose selected index is non-negative stamps
that slot's `lastUsed` with the current time (reuse included), and two
successive acquires of the same key return the same index, on every pool
state. -/
theorem claim_C8_stamp_and_reuse (s : SlotPool) (k : String) (now now2 : Nat) :
    (0 ≤ (acquireSlot k now s).1 →
      (acquireSlot k now s).2.slotsUsage[((acquireSlot k now s).1).toNat]? =
        some (some now)) ∧
    (acquireSlot k now2 (acquireSlot k now s).2).1 = (acquireSlot k now s).1 := by
  have hall2 := congrArg Prod.snd (acquireSlot_eq_allocate k now s)
  constructor
  · intro hpos
    rw [hall2]
    show (jsArraySet s.slotsUsage (acquireSlot k now s).1
      now)[((acquireSlot k now s).1).toNat]? = some (some now)
    rw [getElem?_jsArraySet _ _ _ _ hpos]
    simp
  · rcases acquireSlot_index_cases k now s with
      ⟨j, hidx, hjlt, hjval, hjleast⟩ | ⟨hnok, j, hidx, hjlt, hjval, hjleast⟩ |
      ⟨hnok, hnone, hidx⟩
    · rw [hidx] at hall2 ⊢
      have hs2 : (acquireSlot k now s).2.slots = jsArraySet s.slots ((j : Int)) k :=
        (congrArg SlotPool.slots hall2).trans rfl
      have hf2 : findIndexJS (fun x => x == some k) (acquireSlot k now s).2.slots =
          (j : Int) := by
        rw [hs2]
        exact findIndexJS_jsArraySet_self s.slots k j hjleast
      have hne : ((j : Int)) ≠ -1 := by omega
      generalize hg : (acquireSlot k now s).2 = s2
      rw [hg] at hf2
      simp [acquireSlot, hf2, hne, allocateSlot]
    · rw [hidx] at hall2 ⊢
      have hs2 : (acquireSlot k now s).2.slots = jsArraySet s.slots ((j : Int)) k :=
        (congrArg SlotPool.slots hall2).trans rfl
      have hf2 : findIndexJS (fun x => x == some k) (acquireSlot k now s).2.slots =
          (j : Int) := by
        rw [hs2]
        exact findIndexJS_jsArraySet_self s.slots k j (fun i y _ hy => hnok i y hy)
      have hne : ((j : Int)) ≠ -1 := by omega
      generalize hg : (acquireSlot k now s).2 = s2
      rw [hg] at hf2
      simp [acquireSlot, hf2, hne, allocateSlot]
    · rcases findLeastRecentSlotIndex_spec s.slotsUsage with
        ⟨hneg, hempty⟩ | ⟨j, m, hj, hjlt, hjval, hmin, hfirst⟩
      · rw [hidx, hneg] at hall2 ⊢
        have hs2 : (acquireSlot k now s).2 = s := by
          rw [hall2]
          show (⟨jsArraySet s.slots (-1) k, jsArraySet s.slotsUsage (-1) now⟩ :
            SlotPool) = s
          rw [jsArraySet_neg _ _ _ (by norm_num), jsArraySet_neg _ _ _ (by norm_num),
            slotPool_eta]
        rw [hs2]
        have h1 : findIndexJS (fun x => x == some k) s.slots = -1 := by
          apply (findIndexJS_eq_neg_one _ _).mpr
          intro j' y hy
          have := hnok j' y hy
          simpa using this
        have h2 : findIndexJS (fun x => x == none) s.slots = -1 := by
          apply (findIndexJS_eq_neg_one _ _).mpr
          intro j' y hy
          rcases y with _ | v
          · exact absurd hy (hnone j')
          · simp
        simp [acquireSlot, h1, h2, hneg, allocateSlot]
      · rw [hidx, hj] at hall2 ⊢
        have hs2 : (acquireSlot k now s).2.slots = jsArraySet s.slots ((j : Int)) k :=
          (congrArg SlotPool.slots hall2).trans rfl
        have hf2 : findIndexJS (fun x => x == some k) (acquireSlot k now s).2.slots =
            (j : Int) := by
          rw [hs2]
          exact findIndexJS_jsArraySet_self s.slots k j (fun i y _ hy => hnok i y hy)
        have hne : ((j : Int)) ≠ -1 := by omega
        generalize hg : (acquireSlot k now s).2 = s2
        rw [hg] at hf2
        simp [acquireSlot, hf2, hne, allocateSlot]

/-- Witness for C8: acquiring a on the fresh one-slot pool stamps slot 0
with the time, and re-acquiring a returns the same index. -/
theorem claim_C8_witness :
    (acquireSlot "a" 3 (initializeSlots 1
      emptyPool)).2.slotsUsage[((acquireSlot "a" 3
        (initializeSlots 1 emptyPool)).1).toNat]? = some (some 3) ∧
    (acquireSlot "a" 4 (acquireSlot "a" 3 (initializeSlots 1 emptyPool)).2).1 =
      (acquireSlot "a" 3 (initializeSlots 1 emptyPool)).1 := by
  obtain ⟨h1, h2⟩ := claim_C8_stamp_and_reuse (initializeSlots 1 emptyPool) "a" 3 4
  exact ⟨h1 (by decide), h2⟩
